import Mathlib

/-!
Shallow Lean embedding of the stock data service
(src/api/stock_api/stock_service.py): symbol normalization, interval
resolution, provider fetch with schema validation, technical indicator
computation, JSON sanitization, and the response envelope orchestrator.

Modelling conventions:
  * Python strings are lists of characters; an absent (None) argument is
    modelled with Option.
  * Dates are day numbers (Int); the pipeline only compares, sorts and
    subtracts dates, so calendar rendering is abstracted to that order.
  * Exact rational arithmetic stands in for float arithmetic; a missing or
    not-a-number cell of a data frame column is Option.none.
-/

namespace StockService

/-- Whitespace test used by the trimming steps (Python str.strip). -/
def isWS (c : Char) : Bool := c.isWhitespace

/-- Python str.strip: drop whitespace from both ends. -/
def trimChars (l : List Char) : List Char := List.rdropWhile isWS (l.dropWhile isWS)

/-- Characters other than the exchange-suffix separator dot. -/
def notDot (c : Char) : Bool := c != '.'

/-- Source function _normalize_stock_symbol: on None return the empty string;
otherwise strip, keep the part before the first dot, and strip again. -/
def normalize_stock_symbol : Option (List Char) → List Char
  | Option.none => []
  | Option.some s => trimChars ((trimChars s).takeWhile notDot)

/-- The wording of the specification: the substring before the first dot,
trimmed of surrounding whitespace. -/
def spec_normalize_symbol (s : List Char) : List Char :=
  trimChars (s.takeWhile notDot)

/-! ## Interval resolution -/

/-- The interval argument: an integer, a string, or absent (IntervalType in
the source is Union of str, int and None). -/
inductive IntervalInput where
  | none : IntervalInput
  | int : Int → IntervalInput
  | str : List Char → IntervalInput

/-- Python str.isdigit: nonempty and all characters are digits. -/
def strIsDigit (l : List Char) : Bool := !l.isEmpty && l.all Char.isDigit

/-- Numeric value of a digit character. -/
def digitVal (c : Char) : ℕ := c.toNat - 48

/-- Python int() on a digit string: big-endian base-10 accumulation. -/
def parseDigits (l : List Char) : ℕ := l.foldl (fun a c => 10 * a + digitVal c) 0

/-- Source function _parse_interval_to_days.  The source wraps the body in a
broad try/except returning the default; the model is total by construction, so
that fallback has no separate branch.  Absent input or an empty / malformed
string yields the default; a digit string or a digit string with suffix d, m
or y yields the corresponding day count, clamped below at 1. -/
def parse_interval_to_days (interval : IntervalInput) (default_days : Int) : Int :=
  match interval with
  | IntervalInput.none => default_days
  | IntervalInput.int n => max 1 n
  | IntervalInput.str s0 =>
    let s := (trimChars s0).map Char.toLower
    if s.isEmpty then default_days
    else if strIsDigit s then max 1 (parseDigits s : Int)
    else
      let unit := s.getLastD ' '
      let value := s.dropLast
      if !(strIsDigit value) then default_days
      else
        let n : Int := (parseDigits value : Int)
        if unit = 'd' then max 1 n
        else if unit = 'm' then max 1 (n * 30)
        else if unit = 'y' then max 1 (n * 365)
        else default_days

/-- Decimal rendering of a natural number (big-endian character list),
modelling the f-string rendering of the day count. -/
def natChars (n : ℕ) : List Char :=
  (Nat.digits 10 n).reverse.map (fun d => Char.ofNat (48 + d))

/-- Source function _calc_date_range: resolve the interval to a day count,
take today as the end date and count back.  Dates are day numbers; the current
date is a parameter standing for datetime.now(). -/
def calc_date_range (now : Int) (interval : IntervalInput) : Int × Int × List Char :=
  let days := parse_interval_to_days interval 365
  (now - days, now, natChars days.toNat ++ ['d'])

/-! ## JSON values and sanitization -/

/-- A float: a finite rational, or one of the non-finite values
(not-a-number, positive infinity, negative infinity). -/
inductive PFloat where
  | num : ℚ → PFloat
  | nan : PFloat
  | inf : PFloat
  | ninf : PFloat
deriving DecidableEq

/-- math.isfinite. -/
def PFloat.isFinite : PFloat → Bool
  | PFloat.num _ => true
  | _ => false

/-- A Python value as it appears in the response records: None, bool, int,
float, string, a pandas timestamp, a list, or a dict in insertion order.
The np variants model numpy-boxed scalars (np.integer / np.floating), which
the sanitizer unboxes with .item() before testing finiteness. -/
inductive PyVal where
  | none : PyVal
  | bool : Bool → PyVal
  | int : Int → PyVal
  | npInt : Int → PyVal
  | float : PFloat → PyVal
  | npFloat : PFloat → PyVal
  | str : List Char → PyVal
  | stamp : Int → PyVal
  | list : List PyVal → PyVal
  | dict : List (List Char × PyVal) → PyVal

mutual

/-- Source function _sanitize_for_json: unbox numpy scalars, replace any
non-finite float by None, recurse through dicts and lists, and return every
other value unchanged. -/
def sanitize_for_json : PyVal → PyVal
  | PyVal.npFloat f => if f.isFinite then PyVal.float f else PyVal.none
  | PyVal.npInt n => PyVal.int n
  | PyVal.float f => if f.isFinite then PyVal.float f else PyVal.none
  | PyVal.dict kvs => PyVal.dict (sanitizeKVs kvs)
  | PyVal.list xs => PyVal.list (sanitizeList xs)
  | PyVal.none => PyVal.none
  | PyVal.bool b => PyVal.bool b
  | PyVal.int n => PyVal.int n
  | PyVal.str s => PyVal.str s
  | PyVal.stamp d => PyVal.stamp d

/-- Elementwise sanitization of a list value. -/
def sanitizeList : List PyVal → List PyVal
  | [] => []
  | x :: t => sanitize_for_json x :: sanitizeList t

/-- Valuewise sanitization of a dict, keeping keys and their order. -/
def sanitizeKVs : List (List Char × PyVal) → List (List Char × PyVal)
  | [] => []
  | kv :: t => (kv.1, sanitize_for_json kv.2) :: sanitizeKVs t

end

/-! ## Data fetcher -/

/-- A raw provider row after cell parsing: the date cell parses to a day
number or fails (pd.to_datetime with errors=coerce), and each numeric cell
coerces to a rational or to missing (pd.to_numeric with errors=coerce turns
unparseable values into NaN). -/
structure RawRow where
  date : Option Int
  Open : Option ℚ
  High : Option ℚ
  Low : Option ℚ
  Close : Option ℚ
  Volume : Option ℚ
deriving DecidableEq

/-- A raw provider data frame: its column names and its rows. -/
structure RawTable where
  cols : List (List Char)
  rows : List RawRow
deriving DecidableEq

/-- Outcome of the provider call: an exception, a None result, or a frame. -/
inductive ProviderResult where
  | raises : ProviderResult
  | missing : ProviderResult
  | table : RawTable → ProviderResult

/-- The provider as a function of symbol and date range (ak.stock_zh_a_hist;
the YYYYMMDD reformatting of the date strings is absorbed into the Int day
number model of dates). -/
def Provider : Type := List Char → Int → Int → ProviderResult

/-- The provider-side column names recognized by the rename map. -/
def rename_keys : List (List Char) :=
  ["日期".toList, "开盘".toList, "最高".toList, "最低".toList, "收盘".toList,
   "成交量".toList]

/-- A canonical OHLCV row: indexed by date, Close guaranteed present. -/
structure OHLCVRow where
  date : Int
  Open : Option ℚ
  High : Option ℚ
  Low : Option ℚ
  Close : ℚ
  Volume : Option ℚ
deriving DecidableEq

/-- Date order on raw rows paired with their parsed date. -/
def dateLE (a b : Int × RawRow) : Prop := a.1 ≤ b.1

instance : DecidableRel dateLE := fun a b => inferInstanceAs (Decidable (a.1 ≤ b.1))

instance : IsTotal (Int × RawRow) dateLE := ⟨fun a b => le_total a.1 b.1⟩

instance : IsTrans (Int × RawRow) dateLE := ⟨fun _ _ _ h1 h2 => le_trans h1 h2⟩

/-- Body of the fetch after its own symbol normalization (steps 2 through 6
of the fetcher): call the provider, absorb exceptions and empty or
mis-shaped frames into an empty table, parse dates and drop rows whose date
fails to parse, sort ascending by date, and drop rows with missing Close. -/
def fetch_body (provider : Provider) (symbol : List Char)
    (start_d end_d : Int) : List OHLCVRow :=
  match provider symbol start_d end_d with
  | ProviderResult.raises => []
  | ProviderResult.missing => []
  | ProviderResult.table df =>
    if df.rows.isEmpty then []
    else if (rename_keys.filter (fun c => df.cols.contains c)).isEmpty then []
    else if !(rename_keys.all (fun c => df.cols.contains c)) then []
    else
      let dated := df.rows.filterMap (fun r => r.date.map (fun d => (d, r)))
      let sorted := List.insertionSort dateLE dated
      sorted.filterMap (fun dr =>
        dr.2.Close.map (fun c =>
          ⟨dr.1, dr.2.Open, dr.2.High, dr.2.Low, c, dr.2.Volume⟩))

/-- Source function fetch_china_stock_data: normalize the symbol (again),
return the empty table on an empty symbol, else run the fetch body. -/
def fetch_china_stock_data (provider : Provider) (stock_code : List Char)
    (start_d end_d : Int) : List OHLCVRow :=
  let symbol := normalize_stock_symbol (Option.some stock_code)
  if symbol.isEmpty then []
  else fetch_body provider symbol start_d end_d

/-! ## Indicator engine -/

/-- Trailing window of the last w entries ending at index i. -/
def windowSlice {α : Type} (w : ℕ) (xs : List α) (i : ℕ) : List α :=
  (xs.take (i + 1)).drop (i + 1 - w)

/-- The values actually present in a window (pandas skips missing values). -/
def validVals (xs : List (Option ℚ)) : List ℚ := xs.filterMap id

/-- Mean of a list of rationals. -/
def listMean (v : List ℚ) : ℚ := v.sum / v.length

/-- pandas rolling(w, min_periods=1).mean() at index i. -/
def rollingMeanAt (w : ℕ) (xs : List (Option ℚ)) (i : ℕ) : Option ℚ :=
  let v := validVals (windowSlice w xs i)
  if v.isEmpty then Option.none else Option.some (listMean v)

/-- Sample variance with one delta degree of freedom (ddof = 1). -/
def sampleVar (v : List ℚ) : ℚ :=
  (v.map (fun x => (x - listMean v) ^ 2)).sum / ((v.length : ℚ) - 1)

/-- pandas rolling(w, min_periods=1).std() at index i, carried as its
square: the sample standard deviation is the square root of this value,
which is irrational in general, while its definedness (missing unless at
least two observations are present in the window) and its square are exact
rationals. -/
def rollingVarAt (w : ℕ) (xs : List (Option ℚ)) (i : ℕ) : Option ℚ :=
  let v := validVals (windowSlice w xs i)
  if v.length < 2 then Option.none else Option.some (sampleVar v)

/-- pandas Series.diff at index i over the Close column. -/
def diffAt (closes : List ℚ) (i : ℕ) : Option ℚ :=
  if i = 0 then Option.none
  else Option.some (closes.getD i 0 - closes.getD (i - 1) 0)

/-- pandas Series.pct_change at index i.  A zero previous close yields a
non-finite float in the source, which the sanitizer nulls downstream; the
model short-circuits it to missing (the indicator results proved below
assume positive closes, where the branch is unreachable). -/
def pctChangeAt (closes : List ℚ) (i : ℕ) : Option ℚ :=
  if i = 0 then Option.none
  else
    let prev := closes.getD (i - 1) 0
    if prev = 0 then Option.none
    else Option.some ((closes.getD i 0 - prev) / prev)

/-- delta.clip(lower=0) at index i. -/
def gainAt (closes : List ℚ) (i : ℕ) : Option ℚ :=
  (diffAt closes i).map (fun d => max d 0)

/-- (-delta).clip(lower=0) at index i. -/
def lossAt (closes : List ℚ) (i : ℕ) : Option ℚ :=
  (diffAt closes i).map (fun d => max (-d) 0)

/-- Series.replace(0, nan) applied to one cell. -/
def replaceZero (o : Option ℚ) : Option ℚ :=
  match o with
  | Option.some q => if q = 0 then Option.none else Option.some q
  | Option.none => Option.none

/-- Rounding to four decimal places (DataFrame.round(4); the tie convention
of the float implementation is immaterial to every result below). -/
def round4 (q : ℚ) : ℚ := (round (q * 10000) : ℚ) / 10000

/-- RSI before rounding at index i: trailing 14-row means of gains and
losses, zero average loss replaced by missing, then 100 - 100/(1 + rs). -/
def rsiRawAt (closes : List ℚ) (i : ℕ) : Option ℚ :=
  let ag := rollingMeanAt 14 ((List.range closes.length).map (gainAt closes)) i
  let al := replaceZero
    (rollingMeanAt 14 ((List.range closes.length).map (lossAt closes)) i)
  match ag, al with
  | Option.some g, Option.some l => Option.some (100 - 100 / (1 + g / l))
  | _, _ => Option.none

/-- An enriched row: the OHLCV fields plus the five indicator columns.
Volatility_20d carries the square of the unrounded standard deviation (see
rollingVarAt). -/
structure EnrichedRow where
  date : Int
  Open : Option ℚ
  High : Option ℚ
  Low : Option ℚ
  Close : ℚ
  Volume : Option ℚ
  MA_10 : Option ℚ
  MA_50 : Option ℚ
  Daily_Return : Option ℚ
  Volatility_20d : Option ℚ
  RSI : Option ℚ
deriving DecidableEq

/-- Default row for indexed access (never selected in the proofs). -/
def defaultOHLCV : OHLCVRow :=
  ⟨0, Option.none, Option.none, Option.none, 0, Option.none⟩

/-- Source function feature_engineering: an empty frame maps to an empty
frame; otherwise add MA_10, MA_50, Daily_Return, Volatility_20d and RSI and
round the float columns (Open, High, Low, Close and the derived columns) to
four decimals.  Volume keeps an integer dtype in the standard frame and is
left unrounded. -/
def feature_engineering (df : List OHLCVRow) : List EnrichedRow :=
  if df.isEmpty then []
  else
    let closes := df.map (fun r => r.Close)
    let closesOpt : List (Option ℚ) := closes.map Option.some
    (List.range df.length).map (fun i =>
      let r := df.getD i defaultOHLCV
      ⟨r.date, r.Open.map round4, r.High.map round4, r.Low.map round4,
       round4 r.Close, r.Volume,
       (rollingMeanAt 10 closesOpt i).map round4,
       (rollingMeanAt 50 closesOpt i).map round4,
       (pctChangeAt closes i).map round4,
       rollingVarAt 20 ((List.range closes.length).map (pctChangeAt closes)) i,
       (rsiRawAt closes i).map round4⟩)

/-! ## Orchestrator -/

/-- A cell of a record: a present rational or the NaN float of a missing
data frame cell. -/
def cellVal : Option ℚ → PyVal
  | Option.some q => PyVal.float (PFloat.num q)
  | Option.none => PyVal.float PFloat.nan

/-- The stable column order of the response records. -/
def column_order : List (List Char) :=
  ["Date".toList, "Open".toList, "High".toList, "Low".toList, "Close".toList,
   "Volume".toList, "MA_10".toList, "MA_50".toList, "Daily_Return".toList,
   "Volatility_20d".toList, "RSI".toList]

/-- df.reset_index().to_dict(orient="records") for one row: keys in frame
order, the Date value the pandas timestamp object of the row (not a
string). -/
def recordOfRow (r : EnrichedRow) : PyVal :=
  PyVal.dict
    [("Date".toList, PyVal.stamp r.date),
     ("Open".toList, cellVal r.Open),
     ("High".toList, cellVal r.High),
     ("Low".toList, cellVal r.Low),
     ("Close".toList, PyVal.float (PFloat.num r.Close)),
     ("Volume".toList, cellVal r.Volume),
     ("MA_10".toList, cellVal r.MA_10),
     ("MA_50".toList, cellVal r.MA_50),
     ("Daily_Return".toList, cellVal r.Daily_Return),
     ("Volatility_20d".toList, cellVal r.Volatility_20d),
     ("RSI".toList, cellVal r.RSI)]

/-- The meta block of the envelope. -/
structure Meta where
  stock_code : Option (List Char)
  symbol : List Char
  start_date : Int
  end_date : Int
  interval : List Char
  rows : ℕ

/-- The response envelope. -/
structure Envelope where
  success : Bool
  message : List Char
  meta : Meta
  data : List PyVal

/-- The envelope together with the observable of whether the provider fetch
was invoked (the mock-provider call count of the specification's tests). -/
structure TracedEnvelope where
  env : Envelope
  providerCalled : Bool

/-- Source function get_stock_data_with_features, with the provider call
made observable.  The source sanitizes the record list as one value; by the
list equation of the sanitizer this is the elementwise map used here. -/
def get_stock_data_traced (now : Int) (provider : Provider)
    (stock_code : Option (List Char)) (interval : IntervalInput) :
    TracedEnvelope :=
  let r := calc_date_range now interval
  let symbol := normalize_stock_symbol stock_code
  if symbol.isEmpty then
    ⟨⟨false, "Error: stock_code cannot be empty.".toList,
      ⟨stock_code, [], r.1, r.2.1, r.2.2, 0⟩, []⟩, false⟩
  else
    let df := fetch_china_stock_data provider symbol r.1 r.2.1
    if df.isEmpty then
      ⟨⟨false, "No data found for stock ".toList ++ symbol ++ ".".toList,
        ⟨stock_code, symbol, r.1, r.2.1, r.2.2, 0⟩, []⟩, true⟩
    else
      let records := (feature_engineering df).map recordOfRow
      let cleaned := records.map sanitize_for_json
      ⟨⟨true, "Successfully retrieved stock data for ".toList ++ symbol,
        ⟨stock_code, symbol, r.1, r.2.1, r.2.2, cleaned.length⟩, cleaned⟩, true⟩

/-- The public operation: the envelope part of the traced run. -/
def get_stock_data_with_features (now : Int) (provider : Provider)
    (stock_code : Option (List Char)) (interval : IntervalInput) : Envelope :=
  (get_stock_data_traced now provider stock_code interval).env

/-! ## Indicator engine lemmas -/

/-- Default enriched row for indexed access (never selected in the proofs). -/
def defaultEnriched : EnrichedRow :=
  ⟨0, Option.none, Option.none, Option.none, 0, Option.none, Option.none,
   Option.none, Option.none, Option.none, Option.none⟩

/-- The Close column of a canonical table. -/
def closesOf (df : List OHLCVRow) : List ℚ := df.map (fun r => r.Close)

/-- The Daily_Return series before rounding. -/
def drSeries (closes : List ℚ) : List (Option ℚ) :=
  (List.range closes.length).map (pctChangeAt closes)

/-- The clipped gain series. -/
def gainSeries (closes : List ℚ) : List (Option ℚ) :=
  (List.range closes.length).map (gainAt closes)

/-- The clipped loss series. -/
def lossSeries (closes : List ℚ) : List (Option ℚ) :=
  (List.range closes.length).map (lossAt closes)

/-- A present cell maps to its float and a missing cell to the null marker
once sanitized. -/
def nullable : Option ℚ → PyVal
  | Option.none => PyVal.none
  | Option.some q => PyVal.float (PFloat.num q)

/-- Key access into a record value. -/
def dictGet (v : PyVal) (k : List Char) : Option PyVal :=
  match v with
  | PyVal.dict kvs => kvs.lookup k
  | _ => Option.none

/-- Three-row table with closes 1, 2, 2: the trailing mean at row 2 is 5/3,
but the engine emits the rounding 1.6667. -/
def dfCounter : List OHLCVRow :=
  [⟨0, Option.none, Option.none, Option.none, 1, Option.none⟩,
   ⟨1, Option.none, Option.none, Option.none, 2, Option.none⟩,
   ⟨2, Option.none, Option.none, Option.none, 2, Option.none⟩]

/-! ## Claim theorems: fetched table -/

/-- The raw rows that survive validation: parseable date and present Close. -/
def keptRows (df : RawTable) : List OHLCVRow :=
  df.rows.filterMap (fun r =>
    match r.date, r.Close with
    | Option.some d, Option.some c =>
      Option.some ⟨d, r.Open, r.High, r.Low, c, r.Volume⟩
    | _, _ => Option.none)

/-- A provider frame with one missing date, one missing Close, and two valid
rows, used as the witness input. -/
def witTable : RawTable :=
  ⟨rename_keys,
   [⟨Option.some 7, Option.some 1, Option.some 2, Option.some 1,
     Option.some 10, Option.some 5⟩,
    ⟨Option.some 3, Option.some 1, Option.some 2, Option.some 1,
     Option.none, Option.some 5⟩,
    ⟨Option.none, Option.some 1, Option.some 2, Option.some 1,
     Option.some 8, Option.some 5⟩,
    ⟨Option.some 4, Option.some 1, Option.some 2, Option.some 1,
     Option.some 9, Option.some 5⟩]⟩

/-- The provider returning that frame. -/
def witProvider : Provider := fun _ _ _ => ProviderResult.table witTable

/-- A provider frame carrying the same date twice. -/
def dupTable : RawTable :=
  ⟨rename_keys,
   [⟨Option.some 5, Option.some 1, Option.some 2, Option.some 1,
     Option.some 10, Option.some 5⟩,
    ⟨Option.some 5, Option.some 1, Option.some 2, Option.some 1,
     Option.some 11, Option.some 5⟩]⟩

/-- The provider returning the duplicate-date frame. -/
def dupDateProvider : Provider := fun _ _ _ => ProviderResult.table dupTable

/-! ## Claim theorems: success records -/

/-- Test for the string constructor. -/
def PyVal.isStr : PyVal → Bool
  | PyVal.str _ => true
  | _ => false

/-- Whitespace never equals the separator dot. -/
theorem isWS_notDot {c : Char} (h : isWS c = true) : notDot c = true := by
  simp only [notDot, bne_iff_ne, ne_eq]
  intro hc
  subst hc
  exact absurd h (by decide)

/-- takeWhile over an append whose first part satisfies the test throughout. -/
theorem takeWhile_append_all {p : Char → Bool} {xs : List Char} (ys : List Char)
    (h : ∀ c ∈ xs, p c = true) :
    (xs ++ ys).takeWhile p = xs ++ ys.takeWhile p := by
  induction xs with
  | nil => simp
  | cons c t ih =>
    have hc : p c = true := h c (by simp)
    simp only [List.cons_append, List.takeWhile_cons, hc, if_pos]
    simp [ih fun d hd => h d (by simp [hd])]

/-- dropWhile over an append whose first part satisfies the test throughout. -/
theorem dropWhile_append_all {p : Char → Bool} {xs : List Char} (ys : List Char)
    (h : ∀ c ∈ xs, p c = true) :
    (xs ++ ys).dropWhile p = ys.dropWhile p := by
  induction xs with
  | nil => simp
  | cons c t ih =>
    have hc : p c = true := h c (by simp)
    simp only [List.cons_append, List.dropWhile_cons, hc, if_pos]
    exact ih fun d hd => h d (by simp [hd])

/-- takeWhile over an append when the scan stops inside the first part. -/
theorem takeWhile_append_of_ne {p : Char → Bool} {xs : List Char} (ys : List Char)
    (h : xs.takeWhile p ≠ xs) :
    (xs ++ ys).takeWhile p = xs.takeWhile p := by
  induction xs with
  | nil => simp at h
  | cons c t ih =>
    by_cases hc : p c = true
    · simp only [List.cons_append, List.takeWhile_cons, hc, if_pos] at h ⊢
      have ht : t.takeWhile p ≠ t := fun he => h (by simp [he])
      simp [ih ht]
    · simp only [Bool.not_eq_true] at hc
      simp [List.takeWhile_cons, hc]

/-- dropWhile over an append when a survivor exists in the first part. -/
theorem dropWhile_append_of_ne {p : Char → Bool} {xs : List Char} (ys : List Char)
    (h : xs.dropWhile p ≠ []) :
    (xs ++ ys).dropWhile p = xs.dropWhile p ++ ys := by
  induction xs with
  | nil => simp at h
  | cons c t ih =>
    by_cases hc : p c = true
    · have h' : t.dropWhile p ≠ [] := by simpa [List.dropWhile_cons, hc] using h
      simp [List.cons_append, List.dropWhile_cons, hc, ih h']
    · simp only [Bool.not_eq_true] at hc
      simp [List.cons_append, List.dropWhile_cons, hc]

/-- A list splits as its right-trimmed part followed by its whitespace tail. -/
theorem rdropWhile_append_rtakeWhile (p : Char → Bool) (l : List Char) :
    List.rdropWhile p l ++ List.rtakeWhile p l = l := by
  simp only [List.rdropWhile, List.rtakeWhile]
  rw [← List.reverse_append, List.takeWhile_append_dropWhile, List.reverse_reverse]

/-- Appending an all-satisfying tail does not change the right trim. -/
theorem rdropWhile_append_all {p : Char → Bool} {b : List Char} (m : List Char)
    (h : ∀ c ∈ b, p c = true) :
    List.rdropWhile p (m ++ b) = List.rdropWhile p m := by
  simp only [List.rdropWhile, List.reverse_append]
  rw [dropWhile_append_all _ (fun c hc => h c (List.mem_reverse.mp hc))]

/-- Appending an all-whitespace tail does not change the trimmed string. -/
theorem trimChars_append_ws {b : List Char} (m : List Char)
    (h : ∀ c ∈ b, isWS c = true) :
    trimChars (m ++ b) = trimChars m := by
  unfold trimChars
  by_cases hm : m.dropWhile isWS = []
  · rw [dropWhile_append_all _ (fun c hc => by
      have : ∀ c ∈ m, isWS c = true := by
        intro d hd
        by_contra hdw
        exact absurd (List.dropWhile_eq_nil_iff.mp hm d hd) hdw
      exact this c hc)]
    rw [hm]
    have hb : b.dropWhile isWS = [] := List.dropWhile_eq_nil_iff.mpr (fun x hx => h x hx)
    rw [hb]
  · rw [dropWhile_append_of_ne _ hm, rdropWhile_append_all _ h]

/-- Prepending an all-whitespace head does not change the trimmed string. -/
theorem trimChars_ws_append {w : List Char} (m : List Char)
    (h : ∀ c ∈ w, isWS c = true) :
    trimChars (w ++ m) = trimChars m := by
  unfold trimChars
  rw [dropWhile_append_all _ h]

/-- The characters of the whitespace tail produced by rtakeWhile. -/
theorem mem_rtakeWhile_ws {l : List Char} {c : Char}
    (hc : c ∈ List.rtakeWhile isWS l) : isWS c = true :=
  List.mem_rtakeWhile_imp hc

/-- Key commutation: trimming before taking the prefix up to the first dot and
re-trimming is the same as taking that prefix on the raw string and trimming. -/
theorem normalize_eq_spec (s : List Char) :
    normalize_stock_symbol (Option.some s) = spec_normalize_symbol s := by
  show trimChars ((trimChars s).takeWhile notDot) = trimChars (s.takeWhile notDot)
  have hws : ∀ c ∈ s.takeWhile isWS, isWS c = true := fun c hc =>
    List.mem_takeWhile_imp hc
  have h1 : s.takeWhile notDot
      = s.takeWhile isWS ++ (s.dropWhile isWS).takeWhile notDot := by
    conv_lhs => rw [← List.takeWhile_append_dropWhile isWS s]
    exact takeWhile_append_all _ (fun c hc => isWS_notDot (hws c hc))
  have hR : trimChars (s.takeWhile notDot)
      = trimChars ((s.dropWhile isWS).takeWhile notDot) := by
    rw [h1]
    exact trimChars_ws_append _ hws
  rw [hR]
  set a := s.dropWhile isWS with ha
  have htrim : trimChars s = List.rdropWhile isWS a := rfl
  rw [htrim]
  set m := List.rdropWhile isWS a with hm
  have hsplit2 : m ++ List.rtakeWhile isWS a = a := rdropWhile_append_rtakeWhile isWS a
  set b := List.rtakeWhile isWS a with hb
  have hbw : ∀ c ∈ b, isWS c = true := fun c hc => mem_rtakeWhile_ws hc
  by_cases hstop : m.takeWhile notDot = m
  · have hmall : ∀ c ∈ m, notDot c = true := by
      intro c hc
      rw [← hstop] at hc
      exact List.mem_takeWhile_imp hc
    have hball : b.takeWhile notDot = b :=
      List.takeWhile_eq_self_iff.mpr (fun c hc => isWS_notDot (hbw c hc))
    have h2 : a.takeWhile notDot = m ++ b := by
      rw [← hsplit2, takeWhile_append_all _ hmall, hball]
    rw [h2, hstop, trimChars_append_ws _ hbw]
  · have h2 : a.takeWhile notDot = m.takeWhile notDot := by
      rw [← hsplit2]
      exact takeWhile_append_of_ne _ hstop
    rw [h2]

/-- Trimming is idempotent. -/
theorem trimChars_idem (l : List Char) : trimChars (trimChars l) = trimChars l := by
  unfold trimChars
  have key : (List.rdropWhile isWS (l.dropWhile isWS)).dropWhile isWS
      = List.rdropWhile isWS (l.dropWhile isWS) := by
    cases ha : l.dropWhile isWS with
    | nil => simp
    | cons c t =>
      have hcw : isWS c = false := by
        by_contra hb
        simp only [Bool.not_eq_false] at hb
        have hid : List.dropWhile isWS (l.dropWhile isWS) = l.dropWhile isWS :=
          List.dropWhile_idempotent isWS l
        rw [ha, List.dropWhile_cons, if_pos hb] at hid
        have hle : (List.dropWhile isWS t).length ≤ t.length :=
          (List.dropWhile_sublist isWS).length_le
        have hlen := congrArg List.length hid
        simp at hlen
        omega
      cases hcase : List.rdropWhile isWS (c :: t) with
      | nil => simp
      | cons d u =>
        have hsplit2 := rdropWhile_append_rtakeWhile isWS (c :: t)
        rw [hcase] at hsplit2
        have hd : d = c := by
          have hh := congrArg List.head? hsplit2
          simpa using hh
        subst hd
        simp [List.dropWhile_cons, hcw]
  rw [key]
  exact List.rdropWhile_idempotent isWS _

/-- Characters of the trimmed string come from the original string. -/
theorem mem_trimChars {l : List Char} {c : Char} (hc : c ∈ trimChars l) : c ∈ l := by
  unfold trimChars at hc
  simp only [List.rdropWhile, List.mem_reverse] at hc
  have h1 := (List.dropWhile_sublist (l := (l.dropWhile isWS).reverse) isWS).mem hc
  simp only [List.mem_reverse] at h1
  exact (List.dropWhile_sublist isWS).mem h1

/-- The normalized symbol never contains a dot. -/
theorem normalize_no_dot (x : Option (List Char)) {c : Char}
    (hc : c ∈ normalize_stock_symbol x) : notDot c = true := by
  cases x with
  | none => simp [normalize_stock_symbol] at hc
  | some s =>
    simp only [normalize_stock_symbol] at hc
    exact List.mem_takeWhile_imp (mem_trimChars hc)

/-- The normalized symbol carries no surrounding whitespace. -/
theorem normalize_trimmed (x : Option (List Char)) :
    trimChars (normalize_stock_symbol x) = normalize_stock_symbol x := by
  cases x with
  | none => simp [normalize_stock_symbol, trimChars, List.rdropWhile]
  | some s =>
    simp only [normalize_stock_symbol]
    exact trimChars_idem _

/-- Normalization is idempotent. -/
theorem normalize_idem (x : Option (List Char)) :
    normalize_stock_symbol (Option.some (normalize_stock_symbol x))
      = normalize_stock_symbol x := by
  have hdot : (normalize_stock_symbol x).takeWhile notDot = normalize_stock_symbol x :=
    List.takeWhile_eq_self_iff.mpr (fun c hc => normalize_no_dot x hc)
  calc normalize_stock_symbol (Option.some (normalize_stock_symbol x))
      = trimChars ((trimChars (normalize_stock_symbol x)).takeWhile notDot) := rfl
    _ = trimChars ((normalize_stock_symbol x).takeWhile notDot) := by
        rw [normalize_trimmed]
    _ = trimChars (normalize_stock_symbol x) := by rw [hdot]
    _ = normalize_stock_symbol x := normalize_trimmed x

/-- A string without whitespace is unchanged by trimming. -/
theorem trimChars_of_no_ws {l : List Char} (h : ∀ c ∈ l, isWS c = false) :
    trimChars l = l := by
  unfold trimChars
  have h1 : l.dropWhile isWS = l := by
    cases l with
    | nil => rfl
    | cons c t =>
      rw [List.dropWhile_cons, if_neg]
      simp [h c (by simp)]
  rw [h1]
  exact List.rdropWhile_eq_self_iff.mpr
    (fun hl => by simp [h _ (List.getLast_mem hl)])

/-- Reading back a rendered digit. -/
theorem digitVal_toChar {d : ℕ} (h : d < 10) : digitVal (Char.ofNat (48 + d)) = d := by
  interval_cases d <;> decide

/-- Rendered digits pass isDigit. -/
theorem isDigit_toChar {d : ℕ} (h : d < 10) : (Char.ofNat (48 + d)).isDigit = true := by
  interval_cases d <;> decide

/-- Lowercasing does not change digits. -/
theorem toLower_toChar {d : ℕ} (h : d < 10) :
    Char.toLower (Char.ofNat (48 + d)) = Char.ofNat (48 + d) := by
  interval_cases d <;> decide

/-- Rendered digits are not whitespace. -/
theorem isWS_toChar {d : ℕ} (h : d < 10) : isWS (Char.ofNat (48 + d)) = false := by
  interval_cases d <;> decide

/-- Every character of the decimal rendering is a digit. -/
theorem natChars_digits {n : ℕ} {c : Char} (hc : c ∈ natChars n) : c.isDigit = true := by
  unfold natChars at hc
  simp only [List.mem_map, List.mem_reverse] at hc
  obtain ⟨d, hd, rfl⟩ := hc
  exact isDigit_toChar (Nat.digits_lt_base (by norm_num) hd)

/-- No character of the decimal rendering is whitespace. -/
theorem natChars_no_ws {n : ℕ} {c : Char} (hc : c ∈ natChars n) : isWS c = false := by
  unfold natChars at hc
  simp only [List.mem_map, List.mem_reverse] at hc
  obtain ⟨d, hd, rfl⟩ := hc
  exact isWS_toChar (Nat.digits_lt_base (by norm_num) hd)

/-- A positive number renders to a nonempty string. -/
theorem natChars_ne_nil {n : ℕ} (h : 0 < n) : natChars n ≠ [] := by
  unfold natChars
  simp only [ne_eq, List.map_eq_nil_iff, List.reverse_eq_nil_iff]
  exact Nat.digits_ne_nil_iff_ne_zero.mpr (Nat.pos_iff_ne_zero.mp h)

/-- Lowercasing fixes the decimal rendering. -/
theorem natChars_toLower (n : ℕ) : (natChars n).map Char.toLower = natChars n := by
  unfold natChars
  rw [List.map_map]
  apply List.map_congr_left
  intro d hd
  simp only [Function.comp_apply]
  exact toLower_toChar (Nat.digits_lt_base (by norm_num) (List.mem_reverse.mp hd))

/-- Folding the parse step over rendered digits equals folding over raw digits. -/
theorem foldl_map_toChar (ds : List ℕ) (hds : ∀ d ∈ ds, d < 10) (a : ℕ) :
    (ds.map (fun d => Char.ofNat (48 + d))).foldl (fun a c => 10 * a + digitVal c) a
      = ds.foldl (fun a d => 10 * a + d) a := by
  induction ds generalizing a with
  | nil => rfl
  | cons d t ih =>
    simp only [List.map_cons, List.foldl_cons]
    rw [digitVal_toChar (hds d (by simp))]
    exact ih (fun e he => hds e (by simp [he])) _

/-- Big-endian accumulation over reversed digits is ofDigits. -/
theorem foldl_reverse_ofDigits (ds : List ℕ) :
    ds.reverse.foldl (fun a d => 10 * a + d) 0 = Nat.ofDigits 10 ds := by
  induction ds with
  | nil => simp [Nat.ofDigits]
  | cons d t ih =>
    rw [List.reverse_cons, List.foldl_append]
    simp only [List.foldl_cons, List.foldl_nil]
    rw [ih, Nat.ofDigits_cons]
    ring

/-- Parsing the decimal rendering gives back the number. -/
theorem parseDigits_natChars (n : ℕ) : parseDigits (natChars n) = n := by
  unfold parseDigits natChars
  rw [foldl_map_toChar _ (fun d hd =>
      Nat.digits_lt_base (by norm_num) (List.mem_reverse.mp hd)) 0,
    foldl_reverse_ofDigits, Nat.ofDigits_digits]

/-- The decimal rendering of a positive number passes str.isdigit. -/
theorem strIsDigit_natChars {n : ℕ} (h : 0 < n) : strIsDigit (natChars n) = true := by
  unfold strIsDigit
  rw [Bool.and_eq_true, List.all_eq_true]
  refine ⟨?_, fun c hc => natChars_digits hc⟩
  simp [List.isEmpty_iff, natChars_ne_nil h]

/-- Evaluation of the interval resolver on a rendered day count with a unit
suffix that is a lowercase non-digit non-whitespace letter. -/
theorem parse_suffixed (n : ℕ) (h : 0 < n) (u : Char)
    (hu_lower : Char.toLower u = u) (hu_ws : isWS u = false)
    (hu_dig : u.isDigit = false) :
    parse_interval_to_days (IntervalInput.str (natChars n ++ [u])) 365
      = (if u = 'd' then max 1 (n : Int)
         else if u = 'm' then max 1 ((n : Int) * 30)
         else if u = 'y' then max 1 ((n : Int) * 365)
         else 365) := by
  have hnw : ∀ c ∈ natChars n ++ [u], isWS c = false := by
    intro c hc
    rcases List.mem_append.mp hc with h1 | h1
    · exact natChars_no_ws h1
    · simp only [List.mem_singleton] at h1
      subst h1
      exact hu_ws
  have htrim : trimChars (natChars n ++ [u]) = natChars n ++ [u] :=
    trimChars_of_no_ws hnw
  have hlower : (natChars n ++ [u]).map Char.toLower = natChars n ++ [u] := by
    rw [List.map_append, natChars_toLower]
    simp [hu_lower]
  have hne : (natChars n ++ [u]).isEmpty = false := by
    simp [List.isEmpty_iff]
  have hnotdig : strIsDigit (natChars n ++ [u]) = false := by
    unfold strIsDigit
    simp [List.all_append, hu_dig]
  have hlast : (natChars n ++ [u]).getLastD ' ' = u := by
    simp [List.getLastD_concat]
  have hinit : (natChars n ++ [u]).dropLast = natChars n := List.dropLast_concat
  simp only [parse_interval_to_days, htrim, hlower, hne, hnotdig, hlast, hinit,
    strIsDigit_natChars h, parseDigits_natChars, Bool.not_true, Bool.not_false,
    Bool.false_eq_true, if_false, if_true]

/-- Evaluation of the interval resolver on a bare rendered day count. -/
theorem parse_bare (n : ℕ) (h : 0 < n) :
    parse_interval_to_days (IntervalInput.str (natChars n)) 365 = max 1 (n : Int) := by
  have htrim : trimChars (natChars n) = natChars n :=
    trimChars_of_no_ws (fun c hc => natChars_no_ws hc)
  have hne : (natChars n).isEmpty = false := by
    simp [List.isEmpty_iff, natChars_ne_nil h]
  simp only [parse_interval_to_days, htrim, natChars_toLower, hne,
    strIsDigit_natChars h, parseDigits_natChars, Bool.false_eq_true, if_false, if_true]

/-- Every resolved day count is at least one. -/
theorem parse_interval_ge_one (i : IntervalInput) : 1 ≤ parse_interval_to_days i 365 := by
  cases i with
  | none => norm_num [parse_interval_to_days]
  | int n =>
    simp only [parse_interval_to_days]
    exact le_max_left 1 n
  | str s0 =>
    simp only [parse_interval_to_days]
    repeat' split
    all_goals first
      | exact le_max_left _ _
      | norm_num

/-- C3: for every positive n, the integer form, the bare decimal string, and
the d / m / y suffixed forms resolve to n, 30n and 365n days; 6m gives 180,
1y gives 365, 0d clamps to 1; the resolved range ends at the current date,
spans exactly the resolved day count, and its normalized form is the day
count rendered with a d suffix, so a {n}d input normalizes to itself. -/
theorem interval_resolution_days (n : ℕ) (h : 0 < n) :
    parse_interval_to_days (IntervalInput.int n) 365 = n
    ∧ parse_interval_to_days (IntervalInput.str (natChars n)) 365 = n
    ∧ parse_interval_to_days (IntervalInput.str (natChars n ++ ['d'])) 365 = n
    ∧ parse_interval_to_days (IntervalInput.str (natChars n ++ ['m'])) 365 = 30 * n
    ∧ parse_interval_to_days (IntervalInput.str (natChars n ++ ['y'])) 365 = 365 * n
    ∧ parse_interval_to_days (IntervalInput.str ("6m".toList)) 365 = 180
    ∧ parse_interval_to_days (IntervalInput.str ("1y".toList)) 365 = 365
    ∧ parse_interval_to_days (IntervalInput.str ("0d".toList)) 365 = 1
    ∧ (∀ (now : Int) (i : IntervalInput),
        (calc_date_range now i).2.1 = now
        ∧ (calc_date_range now i).2.1 - (calc_date_range now i).1
            = parse_interval_to_days i 365
        ∧ (calc_date_range now i).2.2
            = natChars (parse_interval_to_days i 365).toNat ++ ['d'])
    ∧ (∀ now : Int,
        (calc_date_range now (IntervalInput.str (natChars n ++ ['d']))).2.2
          = natChars n ++ ['d']) := by
  have hn1 : (1 : Int) ≤ (n : Int) := by exact_mod_cast h
  have hd := parse_suffixed n h 'd' (by decide) (by decide) (by decide)
  have hm := parse_suffixed n h 'm' (by decide) (by decide) (by decide)
  have hy := parse_suffixed n h 'y' (by decide) (by decide) (by decide)
  simp only [if_true, if_false, reduceIte] at hd hm hy
  refine ⟨?_, ?_, ?_, ?_, ?_, by decide, by decide, by decide, ?_, ?_⟩
  · simp only [parse_interval_to_days]
    omega
  · rw [parse_bare n h]
    omega
  · rw [hd]
    omega
  · rw [hm]
    push_cast
    omega
  · rw [hy]
    push_cast
    omega
  · intro now i
    refine ⟨rfl, ?_, rfl⟩
    simp only [calc_date_range]
    ring
  · intro now
    show natChars (parse_interval_to_days
        (IntervalInput.str (natChars n ++ ['d'])) 365).toNat ++ ['d'] = natChars n ++ ['d']
    rw [hd]
    congr 1
    congr 1
    omega

/-- C3 witness at n = 6: the 6m form resolves to 180 days. -/
theorem interval_resolution_days_witness :
    0 < 6
    ∧ parse_interval_to_days (IntervalInput.str (natChars 6 ++ ['m'])) 365 = 30 * 6 :=
  ⟨by norm_num, (interval_resolution_days 6 (by norm_num)).2.2.2.1⟩

/-- C4: interval resolution is total (the model has no failure path, matching
the broad exception fallback of the source), every resolved day count is at
least one, the resolved range is never inverted, and absent, empty,
whitespace-only and malformed inputs fall back to the 365-day default. -/
theorem interval_resolution_never_fails :
    (∀ i : IntervalInput, 1 ≤ parse_interval_to_days i 365)
    ∧ (∀ (now : Int) (i : IntervalInput),
        (calc_date_range now i).1 ≤ (calc_date_range now i).2.1)
    ∧ parse_interval_to_days IntervalInput.none 365 = 365
    ∧ parse_interval_to_days (IntervalInput.str []) 365 = 365
    ∧ parse_interval_to_days (IntervalInput.str ("  ".toList)) 365 = 365
    ∧ parse_interval_to_days (IntervalInput.str ("3oy".toList)) 365 = 365 := by
  refine ⟨parse_interval_ge_one, ?_, by decide, by decide, by decide, by decide⟩
  intro now i
  have h1 := parse_interval_ge_one i
  simp only [calc_date_range]
  omega

/-- List sanitization is an elementwise map. -/
theorem sanitizeList_eq_map (xs : List PyVal) :
    sanitizeList xs = xs.map sanitize_for_json := by
  induction xs with
  | nil => rfl
  | cons x t ih => simp [sanitizeList, ih]

/-- Dict sanitization is a valuewise map. -/
theorem sanitizeKVs_eq_map (kvs : List (List Char × PyVal)) :
    sanitizeKVs kvs = kvs.map (fun kv => (kv.1, sanitize_for_json kv.2)) := by
  induction kvs with
  | nil => rfl
  | cons kv t ih => simp [sanitizeKVs, ih]

/-- Dict sanitization keeps the keys and their order. -/
theorem sanitizeKVs_keys (kvs : List (List Char × PyVal)) :
    (sanitizeKVs kvs).map Prod.fst = kvs.map Prod.fst := by
  rw [sanitizeKVs_eq_map, List.map_map]
  rfl

/-- Sanitization is idempotent, by mutual structural induction. -/
theorem sanitize_for_json_idem (v : PyVal) :
    sanitize_for_json (sanitize_for_json v) = sanitize_for_json v := by
  refine @PyVal.rec
    (fun v => sanitize_for_json (sanitize_for_json v) = sanitize_for_json v)
    (fun xs => sanitizeList (sanitizeList xs) = sanitizeList xs)
    (fun kvs => sanitizeKVs (sanitizeKVs kvs) = sanitizeKVs kvs)
    (fun kv => sanitize_for_json (sanitize_for_json kv.2) = sanitize_for_json kv.2)
    rfl (fun _ => rfl) (fun _ => rfl) (fun _ => rfl)
    (fun f => ?_) (fun f => ?_) (fun _ => rfl) (fun _ => rfl)
    (fun xs ih => ?_) (fun kvs ih => ?_)
    rfl (fun x t ih1 ih2 => ?_)
    rfl (fun kv t ih1 ih2 => ?_)
    (fun f s ih => ih) v
  · cases hf : f.isFinite <;> simp [sanitize_for_json, hf]
  · cases hf : f.isFinite <;> simp [sanitize_for_json, hf]
  · simp [sanitize_for_json, ih]
  · simp [sanitize_for_json, ih]
  · simp [sanitizeList, ih1, ih2]
  · simp [sanitizeKVs, ih1, ih2]

/-! ## Claim theorems: sanitizer and symbol normalization -/

/-- C6: the sanitizer nulls every non-finite float, native or numpy-boxed,
recurses through dicts and lists, leaves every other value in place, and is
idempotent. -/
theorem sanitize_for_json_spec :
    (∀ f : PFloat, f.isFinite = false →
      sanitize_for_json (PyVal.float f) = PyVal.none
      ∧ sanitize_for_json (PyVal.npFloat f) = PyVal.none)
    ∧ (∀ q : ℚ,
        sanitize_for_json (PyVal.float (PFloat.num q)) = PyVal.float (PFloat.num q)
        ∧ sanitize_for_json (PyVal.npFloat (PFloat.num q))
            = PyVal.float (PFloat.num q))
    ∧ (∀ kvs, sanitize_for_json (PyVal.dict kvs)
        = PyVal.dict (kvs.map (fun kv => (kv.1, sanitize_for_json kv.2))))
    ∧ (∀ xs, sanitize_for_json (PyVal.list xs)
        = PyVal.list (xs.map sanitize_for_json))
    ∧ sanitize_for_json PyVal.none = PyVal.none
    ∧ (∀ b, sanitize_for_json (PyVal.bool b) = PyVal.bool b)
    ∧ (∀ n, sanitize_for_json (PyVal.int n) = PyVal.int n)
    ∧ (∀ s, sanitize_for_json (PyVal.str s) = PyVal.str s)
    ∧ (∀ d, sanitize_for_json (PyVal.stamp d) = PyVal.stamp d)
    ∧ (∀ v, sanitize_for_json (sanitize_for_json v) = sanitize_for_json v) := by
  refine ⟨fun f hf => ?_, fun q => ⟨rfl, rfl⟩, fun kvs => ?_, fun xs => ?_,
    rfl, fun _ => rfl, fun _ => rfl, fun _ => rfl, fun _ => rfl,
    sanitize_for_json_idem⟩
  · constructor <;> simp [sanitize_for_json, hf]
  · rw [show sanitize_for_json (PyVal.dict kvs) = PyVal.dict (sanitizeKVs kvs)
      from rfl, sanitizeKVs_eq_map]
  · rw [show sanitize_for_json (PyVal.list xs) = PyVal.list (sanitizeList xs)
      from rfl, sanitizeList_eq_map]

/-- C6 witness: concrete non-finite floats are nulled and a list containing
one is sanitized idempotently. -/
theorem sanitize_for_json_spec_witness :
    PFloat.nan.isFinite = false
    ∧ sanitize_for_json (PyVal.float PFloat.nan) = PyVal.none
    ∧ PFloat.inf.isFinite = false
    ∧ sanitize_for_json (PyVal.npFloat PFloat.inf) = PyVal.none
    ∧ sanitize_for_json
        (sanitize_for_json (PyVal.list [PyVal.float PFloat.nan, PyVal.int 3]))
        = sanitize_for_json (PyVal.list [PyVal.float PFloat.nan, PyVal.int 3]) :=
  ⟨rfl, (sanitize_for_json_spec.1 PFloat.nan rfl).1, rfl,
    (sanitize_for_json_spec.1 PFloat.inf rfl).2,
    sanitize_for_json_spec.2.2.2.2.2.2.2.2.2
      (PyVal.list [PyVal.float PFloat.nan, PyVal.int 3])⟩

/-- C7: symbol normalization returns the part before the first dot trimmed
of surrounding whitespace, the three example inputs normalize to 600519,
and empty or absent input yields the empty string. -/
theorem normalize_stock_symbol_spec :
    (∀ s : List Char,
      normalize_stock_symbol (Option.some s) = trimChars (s.takeWhile notDot))
    ∧ normalize_stock_symbol (Option.some ("600519.SH".toList)) = "600519".toList
    ∧ normalize_stock_symbol (Option.some ("600519.SZ".toList)) = "600519".toList
    ∧ normalize_stock_symbol (Option.some ("600519".toList)) = "600519".toList
    ∧ normalize_stock_symbol (Option.some []) = []
    ∧ normalize_stock_symbol Option.none = [] :=
  ⟨fun s => normalize_eq_spec s, by decide, by decide, by decide, rfl, rfl⟩

/-- C10: normalization is idempotent; its output contains no dot and carries
no surrounding whitespace, so the second normalization inside the fetcher
leaves the orchestrator's symbol unchanged. -/
theorem normalize_stock_symbol_idem :
    (∀ x : Option (List Char),
      normalize_stock_symbol (Option.some (normalize_stock_symbol x))
        = normalize_stock_symbol x)
    ∧ (∀ x : Option (List Char), ∀ c ∈ normalize_stock_symbol x, c ≠ '.')
    ∧ (∀ x : Option (List Char),
        trimChars (normalize_stock_symbol x) = normalize_stock_symbol x)
    ∧ (∀ (p : Provider) (x : Option (List Char)) (sd ed : Int),
        fetch_china_stock_data p (normalize_stock_symbol x) sd ed
          = if (normalize_stock_symbol x).isEmpty then []
            else fetch_body p (normalize_stock_symbol x) sd ed) := by
  refine ⟨normalize_idem, fun x c hc => ?_, normalize_trimmed, fun p x sd ed => ?_⟩
  · have h := normalize_no_dot x hc
    simpa [notDot, bne_iff_ne] using h
  · simp only [fetch_china_stock_data]
    rw [normalize_idem x]

/-! ## Claim theorems: orchestrator envelope -/

/-- The indicator engine drops no rows. -/
theorem feature_engineering_length (df : List OHLCVRow) :
    (feature_engineering df).length = df.length := by
  unfold feature_engineering
  by_cases h : df.isEmpty = true
  · rw [if_pos h]
    rw [List.isEmpty_iff] at h
    simp [h]
  · rw [if_neg h]
    simp

/-- C1: every envelope has meta.rows equal to the length of data, and
success holds exactly when data is nonempty: both failure envelopes carry
success=false with empty data, the success envelope carries nonempty data,
and no partial envelope exists. -/
theorem envelope_invariants (now : Int) (provider : Provider)
    (stock_code : Option (List Char)) (interval : IntervalInput) :
    (get_stock_data_with_features now provider stock_code interval).meta.rows
      = (get_stock_data_with_features now provider stock_code interval).data.length
    ∧ ((get_stock_data_with_features now provider stock_code interval).success
          = true
        ↔ (get_stock_data_with_features now provider stock_code interval).data
            ≠ []) := by
  simp only [get_stock_data_with_features, get_stock_data_traced]
  split
  · exact ⟨rfl, by simp⟩
  · split
    case isTrue h2 => exact ⟨rfl, by simp⟩
    case isFalse h2 =>
      refine ⟨rfl, ?_⟩
      have hfe : feature_engineering
          (fetch_china_stock_data provider (normalize_stock_symbol stock_code)
            (calc_date_range now interval).1
            (calc_date_range now interval).2.1) ≠ [] := by
        intro hc
        have hlen := feature_engineering_length
          (fetch_china_stock_data provider (normalize_stock_symbol stock_code)
            (calc_date_range now interval).1 (calc_date_range now interval).2.1)
        rw [hc] at hlen
        rw [Bool.not_eq_true, List.isEmpty_eq_false] at h2
        exact h2 (List.length_eq_zero.mp hlen.symm)
      simp [hfe]

/-- C2: when the normalized symbol is empty, the orchestrator returns the
fixed failure envelope (empty-symbol message, zero rows, empty data) and the
provider is never invoked: the trace flag is false and the result does not
depend on the provider. -/
theorem empty_symbol_envelope (now : Int) (provider : Provider)
    (stock_code : Option (List Char)) (interval : IntervalInput)
    (h : normalize_stock_symbol stock_code = []) :
    get_stock_data_traced now provider stock_code interval
      = ⟨⟨false, "Error: stock_code cannot be empty.".toList,
          ⟨stock_code, [],
           (calc_date_range now interval).1,
           (calc_date_range now interval).2.1,
           (calc_date_range now interval).2.2, 0⟩, []⟩, false⟩
    ∧ (get_stock_data_traced now provider stock_code interval).providerCalled
        = false
    ∧ (∀ p2 : Provider,
        get_stock_data_traced now provider stock_code interval
          = get_stock_data_traced now p2 stock_code interval) := by
  have he : (normalize_stock_symbol stock_code).isEmpty = true := by
    simp [List.isEmpty_iff, h]
  have hmain : ∀ p : Provider,
      get_stock_data_traced now p stock_code interval
        = ⟨⟨false, "Error: stock_code cannot be empty.".toList,
            ⟨stock_code, [],
             (calc_date_range now interval).1,
             (calc_date_range now interval).2.1,
             (calc_date_range now interval).2.2, 0⟩, []⟩, false⟩ := by
    intro p
    simp only [get_stock_data_traced, he, if_true]
  exact ⟨hmain provider, by rw [hmain provider],
    fun p2 => by rw [hmain provider, hmain p2]⟩

/-- C2 witness: a whitespace-and-suffix stock code normalizes to empty and
the traced run records no provider call. -/
theorem empty_symbol_envelope_witness :
    normalize_stock_symbol (Option.some ("  .SH".toList)) = []
    ∧ (get_stock_data_traced 100 (fun _ _ _ => ProviderResult.raises)
        (Option.some ("  .SH".toList)) IntervalInput.none).providerCalled
        = false :=
  ⟨by decide,
    (empty_symbol_envelope 100 (fun _ _ _ => ProviderResult.raises)
      (Option.some ("  .SH".toList)) IntervalInput.none (by decide)).2.1⟩

/-! ## Window and rolling lemmas -/

/-- Indexed access into a map over a range. -/
theorem getD_map_range {β : Type} (f : ℕ → β) (n i : ℕ) (hi : i < n) (d : β) :
    ((List.range n).map f).getD i d = f i := by
  have hlen : i < ((List.range n).map f).length := by simpa using hi
  rw [List.getD_eq_getElem _ _ hlen, List.getElem_map, List.getElem_range]

/-- Dropping from a unit-step range. -/
theorem drop_range_one (s n m : ℕ) :
    List.drop m (List.range' s n) = List.range' (s + m) (n - m) := by
  apply List.ext_getElem
  · simp
  · intro i h1 h2
    rw [List.getElem_drop, List.getElem_range'_1, List.getElem_range'_1]
    simp only [List.length_drop, List.length_range'] at h1
    omega

/-- A window of a mapped series is the mapped window. -/
theorem windowSlice_map {α β : Type} (g : α → β) (w : ℕ) (xs : List α) (i : ℕ) :
    windowSlice w (xs.map g) i = (windowSlice w xs i).map g := by
  unfold windowSlice
  rw [← List.map_take, ← List.map_drop]

/-- Window members come from the series. -/
theorem windowSlice_subset {α : Type} (w : ℕ) (xs : List α) (i : ℕ) {a : α}
    (ha : a ∈ windowSlice w xs i) : a ∈ xs := by
  unfold windowSlice at ha
  exact (List.take_sublist _ _).subset ((List.drop_sublist _ _).subset ha)

/-- Length of a trailing window inside the series. -/
theorem windowSlice_length {α : Type} (w : ℕ) (xs : List α) (i : ℕ)
    (hi : i < xs.length) : (windowSlice w xs i).length = min w (i + 1) := by
  unfold windowSlice
  rw [List.length_drop, List.length_take]
  omega

/-- The index window underlying a trailing window over the range. -/
theorem windowSlice_range (w n i : ℕ) (hi : i < n) :
    windowSlice w (List.range n) i = List.range' (i + 1 - w) (min w (i + 1)) := by
  unfold windowSlice
  rw [List.take_range]
  have hmin : min (i + 1) n = i + 1 := by omega
  rw [hmin, List.range_eq_range', drop_range_one]
  have h1 : 0 + (i + 1 - w) = i + 1 - w := by omega
  have h2 : i + 1 - (i + 1 - w) = min w (i + 1) := by omega
  rw [h1, h2]

/-- All values of an all-present series are valid. -/
theorem validVals_map_some (l : List ℚ) : validVals (l.map Option.some) = l := by
  unfold validVals
  induction l with
  | nil => rfl
  | cons x t ih => simp [List.filterMap_cons, ih]

/-- Valid values of a mapped index list. -/
theorem validVals_map (f : ℕ → Option ℚ) (l : List ℕ) :
    validVals (l.map f) = l.filterMap f := by
  unfold validVals
  rw [List.filterMap_map]
  rfl

/-- Count of present values over an index window with no missing entry. -/
theorem validVals_all_some (f : ℕ → Option ℚ) (a b : ℕ)
    (h : ∀ j, a ≤ j → j < a + b → (f j).isSome = true) :
    (validVals ((List.range' a b).map f)).length = b := by
  rw [validVals_map]
  induction b generalizing a with
  | zero => rfl
  | succ b ih =>
    rw [List.range'_succ a b 1]
    have ha : (f a).isSome = true := h a le_rfl (by omega)
    cases hfa : f a with
    | none => rw [hfa] at ha; simp at ha
    | some v =>
      simp only [List.filterMap_cons, hfa, List.length_cons]
      rw [ih (a + 1) (fun j hj1 hj2 => h j (by omega) (by omega))]

/-- Count of present values over an index window whose head index 0 is the
only missing entry. -/
theorem validVals_head_none (f : ℕ → Option ℚ) (b : ℕ)
    (h0 : f 0 = Option.none)
    (h : ∀ j, 1 ≤ j → j < b → (f j).isSome = true) :
    (validVals ((List.range' 0 b).map f)).length = b - 1 := by
  rw [validVals_map]
  cases b with
  | zero => rfl
  | succ b =>
    rw [List.range'_succ 0 b 1]
    simp only [List.filterMap_cons, h0]
    have hrest := validVals_all_some f 1 b (fun j hj1 hj2 => h j hj1 (by omega))
    rw [validVals_map] at hrest
    simpa using hrest

/-- Count of present values of a trailing window over a series that is
missing exactly at index 0. -/
theorem valid_count_shift (f : ℕ → Option ℚ) (n w i : ℕ) (hi : i < n)
    (hf0 : f 0 = Option.none)
    (hf : ∀ j, 1 ≤ j → j < n → (f j).isSome = true) :
    (validVals (windowSlice w ((List.range n).map f) i)).length = min i w := by
  rw [windowSlice_map, windowSlice_range w n i hi]
  by_cases hiw : i + 1 ≤ w
  · have ha : i + 1 - w = 0 := by omega
    rw [ha, validVals_head_none f (min w (i + 1)) hf0
      (fun j hj1 hj2 => hf j hj1 (by omega))]
    omega
  · have hb : min w (i + 1) = w := by omega
    rw [hb, validVals_all_some f _ _ (fun j hj1 hj2 => hf j (by omega) (by omega))]
    omega

/-- A rolling mean with at least one present value in the window. -/
theorem rollingMeanAt_eq_of_pos (w : ℕ) (xs : List (Option ℚ)) (i : ℕ)
    (h : 0 < (validVals (windowSlice w xs i)).length) :
    rollingMeanAt w xs i
      = Option.some (listMean (validVals (windowSlice w xs i))) := by
  unfold rollingMeanAt
  rw [if_neg]
  rw [List.isEmpty_iff]
  intro hc
  rw [hc] at h
  simp at h

/-- The rolling mean of an all-present series averages the trailing window. -/
theorem rollingMeanAt_some (w : ℕ) (hw : 0 < w) (closes : List ℚ) (i : ℕ)
    (hi : i < closes.length) :
    rollingMeanAt w (closes.map Option.some) i
      = Option.some (listMean (windowSlice w closes i)) := by
  have hcount : (validVals (windowSlice w (closes.map Option.some) i)).length
      = min w (i + 1) := by
    rw [windowSlice_map, validVals_map_some, windowSlice_length w closes i hi]
  rw [rollingMeanAt_eq_of_pos w _ i (by omega), windowSlice_map, validVals_map_some]

/-- The enriched row at a valid index. -/
theorem feature_engineering_row (df : List OHLCVRow) (i : ℕ)
    (hi : i < df.length) :
    (feature_engineering df).getD i defaultEnriched =
      ⟨(df.getD i defaultOHLCV).date,
       (df.getD i defaultOHLCV).Open.map round4,
       (df.getD i defaultOHLCV).High.map round4,
       (df.getD i defaultOHLCV).Low.map round4,
       round4 (df.getD i defaultOHLCV).Close,
       (df.getD i defaultOHLCV).Volume,
       (rollingMeanAt 10 ((closesOf df).map Option.some) i).map round4,
       (rollingMeanAt 50 ((closesOf df).map Option.some) i).map round4,
       (pctChangeAt (closesOf df) i).map round4,
       rollingVarAt 20 (drSeries (closesOf df)) i,
       (rsiRawAt (closesOf df) i).map round4⟩ := by
  have hne : ¬ df.isEmpty = true := by
    rw [List.isEmpty_iff]
    intro h
    subst h
    simp at hi
  unfold feature_engineering
  rw [if_neg hne]
  exact getD_map_range _ _ _ hi _

/-- Positivity of an indexed close under rowwise positivity. -/
theorem closes_getD_pos {df : List OHLCVRow} (hpos : ∀ r ∈ df, 0 < r.Close)
    {j : ℕ} (hj : j < df.length) : 0 < (closesOf df).getD j 0 := by
  have hj2 : j < (closesOf df).length := by simpa [closesOf] using hj
  rw [List.getD_eq_getElem _ _ hj2]
  unfold closesOf
  rw [List.getElem_map]
  exact hpos _ (List.getElem_mem _)

/-- The return series is missing exactly at index 0 when closes are
positive. -/
theorem pct_isSome {df : List OHLCVRow} (hpos : ∀ r ∈ df, 0 < r.Close)
    {j : ℕ} (hj1 : 1 ≤ j) (hj : j < df.length) :
    (pctChangeAt (closesOf df) j).isSome = true := by
  have hprev : (closesOf df).getD (j - 1) 0 ≠ 0 :=
    ne_of_gt (closes_getD_pos hpos (by omega))
  unfold pctChangeAt
  rw [if_neg (by omega)]
  simp only [hprev, if_false, Option.isSome_some]

/-- The gain and loss series are missing exactly at index 0. -/
theorem gain_loss_isSome (closes : List ℚ) {j : ℕ} (hj1 : 1 ≤ j) :
    (gainAt closes j).isSome = true ∧ (lossAt closes j).isSome = true := by
  unfold gainAt lossAt diffAt
  rw [if_neg (by omega)]
  simp

/-- Volatility definedness and value: missing below two observations. -/
theorem volatility_at (df : List OHLCVRow) (hpos : ∀ r ∈ df, 0 < r.Close)
    (i : ℕ) (hi : i < df.length) :
    (i < 2 → rollingVarAt 20 (drSeries (closesOf df)) i = Option.none)
    ∧ (2 ≤ i → rollingVarAt 20 (drSeries (closesOf df)) i
        = Option.some (sampleVar
            (validVals (windowSlice 20 (drSeries (closesOf df)) i)))) := by
  have hn : (closesOf df).length = df.length := by simp [closesOf]
  have hcount : (validVals (windowSlice 20 (drSeries (closesOf df)) i)).length
      = min i 20 := by
    unfold drSeries
    exact valid_count_shift (pctChangeAt (closesOf df)) (closesOf df).length 20 i
      (by omega) rfl (fun j hj1 hj2 => pct_isSome hpos hj1 (by omega))
  constructor
  · intro h2
    unfold rollingVarAt
    rw [if_pos (by rw [hcount]; omega)]
  · intro h2
    unfold rollingVarAt
    rw [if_neg (by rw [hcount]; omega)]

/-- RSI characterization: missing at row 0; for later rows, missing exactly
when the trailing average loss is zero, else the bounded ratio formula. -/
theorem rsi_at (df : List OHLCVRow) (_hpos : ∀ r ∈ df, 0 < r.Close)
    (i : ℕ) (hi : i < df.length) :
    (i = 0 → rsiRawAt (closesOf df) i = Option.none)
    ∧ (1 ≤ i →
        (listMean (validVals (windowSlice 14 (lossSeries (closesOf df)) i)) = 0 →
          rsiRawAt (closesOf df) i = Option.none)
        ∧ (listMean (validVals (windowSlice 14 (lossSeries (closesOf df)) i)) ≠ 0 →
          rsiRawAt (closesOf df) i = Option.some (100 - 100 /
            (1 + listMean (validVals (windowSlice 14 (gainSeries (closesOf df)) i))
              / listMean (validVals (windowSlice 14 (lossSeries (closesOf df)) i)))))) := by
  have hn : (closesOf df).length = df.length := by simp [closesOf]
  constructor
  · intro h0
    subst h0
    have hgcount : (validVals
        (windowSlice 14 (gainSeries (closesOf df)) 0)).length = min 0 14 := by
      unfold gainSeries
      exact valid_count_shift (gainAt (closesOf df)) (closesOf df).length 14 0
        (by omega) rfl (fun j hj1 hj2 => (gain_loss_isSome (closesOf df) hj1).1)
    have hag : rollingMeanAt 14 (gainSeries (closesOf df)) 0 = Option.none := by
      unfold rollingMeanAt
      rw [if_pos]
      rw [List.isEmpty_iff, ← List.length_eq_zero]
      omega
    unfold rsiRawAt
    unfold gainSeries at hag
    rw [hag]
  · intro h1
    have hgcount : (validVals
        (windowSlice 14 (gainSeries (closesOf df)) i)).length = min i 14 := by
      unfold gainSeries
      exact valid_count_shift (gainAt (closesOf df)) (closesOf df).length 14 i
        (by omega) rfl (fun j hj1 hj2 => (gain_loss_isSome (closesOf df) hj1).1)
    have hlcount : (validVals
        (windowSlice 14 (lossSeries (closesOf df)) i)).length = min i 14 := by
      unfold lossSeries
      exact valid_count_shift (lossAt (closesOf df)) (closesOf df).length 14 i
        (by omega) rfl (fun j hj1 hj2 => (gain_loss_isSome (closesOf df) hj1).2)
    have hag : rollingMeanAt 14 (gainSeries (closesOf df)) i
        = Option.some (listMean
            (validVals (windowSlice 14 (gainSeries (closesOf df)) i))) :=
      rollingMeanAt_eq_of_pos 14 _ i (by omega)
    have hal : rollingMeanAt 14 (lossSeries (closesOf df)) i
        = Option.some (listMean
            (validVals (windowSlice 14 (lossSeries (closesOf df)) i))) :=
      rollingMeanAt_eq_of_pos 14 _ i (by omega)
    constructor
    · intro hz
      unfold lossSeries at hz
      unfold rsiRawAt
      unfold gainSeries at hag
      unfold lossSeries at hal
      rw [hag, hal]
      unfold replaceZero
      dsimp only
      rw [if_pos hz]
    · intro hz
      unfold lossSeries at hz
      unfold rsiRawAt
      unfold gainSeries at hag
      unfold lossSeries at hal
      rw [hag, hal]
      unfold replaceZero
      dsimp only
      rw [if_neg hz]
      unfold gainSeries lossSeries
      rfl

/-- Entries of the gain window are clipped below at zero. -/
theorem validVals_gain_nonneg (closes : List ℚ) (i : ℕ) :
    ∀ q ∈ validVals (windowSlice 14 (gainSeries closes) i), 0 ≤ q := by
  intro q hq
  unfold validVals at hq
  rw [List.mem_filterMap] at hq
  obtain ⟨o, ho, hid⟩ := hq
  have ho2 : o ∈ gainSeries closes := windowSlice_subset _ _ _ ho
  unfold gainSeries at ho2
  rw [List.mem_map] at ho2
  obtain ⟨j, _, rfl⟩ := ho2
  unfold gainAt at hid
  cases hd : diffAt closes j with
  | none => rw [hd] at hid; simp at hid
  | some d =>
    rw [hd] at hid
    simp only [Option.map_some', id_eq, Option.some.injEq] at hid
    rw [← hid]
    exact le_max_right d 0

/-- Entries of the loss window are clipped below at zero. -/
theorem validVals_loss_nonneg (closes : List ℚ) (i : ℕ) :
    ∀ q ∈ validVals (windowSlice 14 (lossSeries closes) i), 0 ≤ q := by
  intro q hq
  unfold validVals at hq
  rw [List.mem_filterMap] at hq
  obtain ⟨o, ho, hid⟩ := hq
  have ho2 : o ∈ lossSeries closes := windowSlice_subset _ _ _ ho
  unfold lossSeries at ho2
  rw [List.mem_map] at ho2
  obtain ⟨j, _, rfl⟩ := ho2
  unfold lossAt at hid
  cases hd : diffAt closes j with
  | none => rw [hd] at hid; simp at hid
  | some d =>
    rw [hd] at hid
    simp only [Option.map_some', id_eq, Option.some.injEq] at hid
    rw [← hid]
    exact le_max_right (-d) 0

/-- A mean of nonnegative values is nonnegative. -/
theorem listMean_nonneg {v : List ℚ} (h : ∀ q ∈ v, 0 ≤ q) : 0 ≤ listMean v := by
  unfold listMean
  exact div_nonneg (List.sum_nonneg h) (Nat.cast_nonneg _)

/-- Rounding preserves nonnegativity. -/
theorem round4_nonneg {q : ℚ} (h0 : 0 ≤ q) : 0 ≤ round4 q := by
  unfold round4
  apply div_nonneg _ (by norm_num)
  have hz : (0 : ℤ) ≤ round (q * 10000) := by
    rw [round_eq]
    apply Int.floor_nonneg.mpr
    linarith
  exact_mod_cast hz

/-- Rounding a value below 100 stays at most 100. -/
theorem round4_le_100 {q : ℚ} (h1 : q < 100) : round4 q ≤ 100 := by
  unfold round4
  rw [div_le_iff₀ (by norm_num)]
  have hz : round (q * 10000) ≤ 1000000 := by
    rw [round_eq]
    have hfl : ⌊q * 10000 + 1 / 2⌋ < 1000001 := by
      rw [Int.floor_lt]
      push_cast
      linarith
    omega
  calc ((round (q * 10000) : ℤ) : ℚ) ≤ ((1000000 : ℤ) : ℚ) := by exact_mod_cast hz
    _ = 100 * 10000 := by norm_num

/-- The rounded RSI column lies in the unit-hundred interval wherever it is
defined. -/
theorem rsi_bounds (df : List OHLCVRow) (hpos : ∀ r ∈ df, 0 < r.Close)
    (i : ℕ) (hi : i < df.length) {q : ℚ}
    (h : (rsiRawAt (closesOf df) i).map round4 = Option.some q) :
    0 ≤ q ∧ q ≤ 100 := by
  by_cases h0 : i = 0
  · rw [((rsi_at df hpos i hi).1 h0)] at h
    simp at h
  · have h1 : 1 ≤ i := by omega
    by_cases hz : listMean
        (validVals (windowSlice 14 (lossSeries (closesOf df)) i)) = 0
    · rw [((rsi_at df hpos i hi).2 h1).1 hz] at h
      simp at h
    · rw [((rsi_at df hpos i hi).2 h1).2 hz] at h
      simp only [Option.map_some', Option.some.injEq] at h
      subst h
      set g := listMean
        (validVals (windowSlice 14 (gainSeries (closesOf df)) i)) with hgdef
      set l := listMean
        (validVals (windowSlice 14 (lossSeries (closesOf df)) i)) with hldef
      have hg : 0 ≤ g := listMean_nonneg (validVals_gain_nonneg (closesOf df) i)
      have hl0 : 0 ≤ l := listMean_nonneg (validVals_loss_nonneg (closesOf df) i)
      have hl : 0 < l := lt_of_le_of_ne hl0 (Ne.symm hz)
      have hrs : 0 ≤ g / l := div_nonneg hg (le_of_lt hl)
      have hden : (1 : ℚ) ≤ 1 + g / l := by linarith
      have hpos2 : 0 < 100 / (1 + g / l) := by positivity
      have hle : 100 / (1 + g / l) ≤ 100 := div_le_self (by norm_num) hden
      exact ⟨round4_nonneg (by linarith), round4_le_100 (by linarith)⟩

/-- Sanitized records expose each indicator as an explicit value: the null
marker exactly for a missing cell, a float otherwise, under every column
key. -/
theorem sanitized_record_cells (r : EnrichedRow) :
    dictGet (sanitize_for_json (recordOfRow r)) ("MA_10".toList)
        = Option.some (nullable r.MA_10)
    ∧ dictGet (sanitize_for_json (recordOfRow r)) ("MA_50".toList)
        = Option.some (nullable r.MA_50)
    ∧ dictGet (sanitize_for_json (recordOfRow r)) ("Daily_Return".toList)
        = Option.some (nullable r.Daily_Return)
    ∧ dictGet (sanitize_for_json (recordOfRow r)) ("Volatility_20d".toList)
        = Option.some (nullable r.Volatility_20d)
    ∧ dictGet (sanitize_for_json (recordOfRow r)) ("RSI".toList)
        = Option.some (nullable r.RSI)
    ∧ (∀ k ∈ column_order,
        (dictGet (sanitize_for_json (recordOfRow r)) k).isSome = true) := by
  obtain ⟨d, o, h, lo, c, vo, m10, m50, dr, vol, rsi⟩ := r
  refine ⟨?_, ?_, ?_, ?_, ?_, ?_⟩
  · cases m10 <;> rfl
  · cases m50 <;> rfl
  · cases dr <;> rfl
  · cases vol <;> rfl
  · cases rsi <;> rfl
  · intro k hk
    simp only [column_order, List.mem_cons, List.not_mem_nil, or_false] at hk
    rcases hk with rfl | rfl | rfl | rfl | rfl | rfl | rfl | rfl | rfl | rfl | rfl
      <;> rfl

/-- C5 (amended): over a table with positive closes, the engine emits at
every row the four-decimal rounding of the trailing means (full row
otherwise partial window, never a gap), the rounded day-over-day return
(missing at row 0), the trailing sample deviation of returns carried by its
square (missing below two observations), and the rounded RSI (missing at
row 0 and whenever the trailing average loss is zero, else in [0, 100]);
missing indicator cells materialize as the explicit null marker under their
key in the sanitized records, and the empty table maps to the empty table
with no row ever dropped. -/
theorem feature_engineering_spec (df : List OHLCVRow) (i : ℕ)
    (hi : i < df.length) (hpos : ∀ r ∈ df, 0 < r.Close) :
    feature_engineering [] = []
    ∧ (feature_engineering df).length = df.length
    ∧ ((feature_engineering df).getD i defaultEnriched).MA_10
        = Option.some (round4 (listMean (windowSlice 10 (closesOf df) i)))
    ∧ ((feature_engineering df).getD i defaultEnriched).MA_50
        = Option.some (round4 (listMean (windowSlice 50 (closesOf df) i)))
    ∧ (i = 0 → ((feature_engineering df).getD i defaultEnriched).Daily_Return
        = Option.none)
    ∧ (1 ≤ i → ((feature_engineering df).getD i defaultEnriched).Daily_Return
        = Option.some (round4
            (((closesOf df).getD i 0 - (closesOf df).getD (i - 1) 0)
              / (closesOf df).getD (i - 1) 0)))
    ∧ (i < 2 → ((feature_engineering df).getD i defaultEnriched).Volatility_20d
        = Option.none)
    ∧ (2 ≤ i → ((feature_engineering df).getD i defaultEnriched).Volatility_20d
        = Option.some (sampleVar
            (validVals (windowSlice 20 (drSeries (closesOf df)) i))))
    ∧ (i = 0 → ((feature_engineering df).getD i defaultEnriched).RSI
        = Option.none)
    ∧ (1 ≤ i →
        listMean (validVals (windowSlice 14 (lossSeries (closesOf df)) i)) = 0 →
        ((feature_engineering df).getD i defaultEnriched).RSI = Option.none)
    ∧ (1 ≤ i →
        listMean (validVals (windowSlice 14 (lossSeries (closesOf df)) i)) ≠ 0 →
        ((feature_engineering df).getD i defaultEnriched).RSI
          = Option.some (round4 (100 - 100 /
              (1 + listMean (validVals (windowSlice 14 (gainSeries (closesOf df)) i))
                / listMean (validVals (windowSlice 14 (lossSeries (closesOf df)) i))))))
    ∧ (∀ q, ((feature_engineering df).getD i defaultEnriched).RSI = Option.some q →
        0 ≤ q ∧ q ≤ 100)
    ∧ (∀ r : EnrichedRow,
        dictGet (sanitize_for_json (recordOfRow r)) ("MA_10".toList)
            = Option.some (nullable r.MA_10)
        ∧ dictGet (sanitize_for_json (recordOfRow r)) ("MA_50".toList)
            = Option.some (nullable r.MA_50)
        ∧ dictGet (sanitize_for_json (recordOfRow r)) ("Daily_Return".toList)
            = Option.some (nullable r.Daily_Return)
        ∧ dictGet (sanitize_for_json (recordOfRow r)) ("Volatility_20d".toList)
            = Option.some (nullable r.Volatility_20d)
        ∧ dictGet (sanitize_for_json (recordOfRow r)) ("RSI".toList)
            = Option.some (nullable r.RSI)
        ∧ (∀ k ∈ column_order,
            (dictGet (sanitize_for_json (recordOfRow r)) k).isSome = true)) := by
  have hrow := feature_engineering_row df i hi
  have hlen : (closesOf df).length = df.length := by simp [closesOf]
  refine ⟨rfl, feature_engineering_length df, ?_, ?_, ?_, ?_, ?_, ?_, ?_, ?_,
    ?_, ?_, fun r => sanitized_record_cells r⟩
  · rw [hrow]
    show (rollingMeanAt 10 ((closesOf df).map Option.some) i).map round4 = _
    rw [rollingMeanAt_some 10 (by norm_num) (closesOf df) i (by omega)]
    rfl
  · rw [hrow]
    show (rollingMeanAt 50 ((closesOf df).map Option.some) i).map round4 = _
    rw [rollingMeanAt_some 50 (by norm_num) (closesOf df) i (by omega)]
    rfl
  · intro h0
    subst h0
    rw [hrow]
    rfl
  · intro h1
    rw [hrow]
    show (pctChangeAt (closesOf df) i).map round4 = _
    have hprev : (closesOf df).getD (i - 1) 0 ≠ 0 :=
      ne_of_gt (closes_getD_pos hpos (by omega))
    unfold pctChangeAt
    rw [if_neg (by omega)]
    dsimp only
    rw [if_neg hprev]
    rfl
  · intro h2
    rw [hrow]
    exact (volatility_at df hpos i hi).1 h2
  · intro h2
    rw [hrow]
    exact (volatility_at df hpos i hi).2 h2
  · intro h0
    rw [hrow]
    show (rsiRawAt (closesOf df) i).map round4 = _
    rw [(rsi_at df hpos i hi).1 h0]
    rfl
  · intro h1 hz
    rw [hrow]
    show (rsiRawAt (closesOf df) i).map round4 = _
    rw [((rsi_at df hpos i hi).2 h1).1 hz]
    rfl
  · intro h1 hz
    rw [hrow]
    show (rsiRawAt (closesOf df) i).map round4 = _
    rw [((rsi_at df hpos i hi).2 h1).2 hz]
    rfl
  · intro q hq
    rw [hrow] at hq
    exact rsi_bounds df hpos i hi hq

/-- C5 counterexample: MA_10 is the rounded trailing mean, not the exact
trailing mean the claim states. -/
theorem feature_engineering_rounding_counterexample :
    ((feature_engineering dfCounter).getD 2 defaultEnriched).MA_10
        = Option.some (16667 / 10000 : ℚ)
    ∧ listMean (windowSlice 10 (closesOf dfCounter) 2) = 5 / 3
    ∧ (16667 / 10000 : ℚ) ≠ 5 / 3 := by
  have hwin : windowSlice 10 (closesOf dfCounter) 2 = [1, 2, 2] := rfl
  have hmean : listMean (windowSlice 10 (closesOf dfCounter) 2) = 5 / 3 := by
    rw [hwin]
    norm_num [listMean]
  have hround : round ((5 : ℚ) / 3 * 10000) = 16667 := by
    rw [round_eq]
    have harg : ((5 : ℚ) / 3 * 10000 + 1 / 2) = 100003 / 6 := by norm_num
    rw [harg, Int.floor_eq_iff]
    norm_num
  refine ⟨?_, hmean, by norm_num⟩
  have hrow := feature_engineering_row dfCounter 2 (by norm_num [dfCounter])
  rw [hrow]
  show (rollingMeanAt 10 ((closesOf dfCounter).map Option.some) 2).map round4 = _
  rw [rollingMeanAt_some 10 (by norm_num) _ 2 (by norm_num [closesOf, dfCounter])]
  simp only [Option.map_some', Option.some.injEq]
  rw [hmean]
  unfold round4
  rw [hround]
  norm_num

/-- C5 witness at the three-row table and row 2. -/
theorem feature_engineering_spec_witness :
    2 < dfCounter.length
    ∧ (∀ r ∈ dfCounter, 0 < r.Close)
    ∧ ((feature_engineering dfCounter).getD 2 defaultEnriched).MA_10
        = Option.some (round4 (listMean (windowSlice 10 (closesOf dfCounter) 2))) :=
  ⟨by norm_num [dfCounter], by norm_num [dfCounter],
    (feature_engineering_spec dfCounter 2 (by norm_num [dfCounter])
      (by norm_num [dfCounter])).2.2.1⟩

/-- Every fetched table is sorted non-decreasing by date. -/
theorem fetch_sorted (p : Provider) (sc : List Char) (sd ed : Int) :
    List.Pairwise (fun a b : OHLCVRow => a.date ≤ b.date)
      (fetch_china_stock_data p sc sd ed) := by
  unfold fetch_china_stock_data
  dsimp only
  split
  · exact List.Pairwise.nil
  · unfold fetch_body
    split
    · exact List.Pairwise.nil
    · exact List.Pairwise.nil
    · split
      · exact List.Pairwise.nil
      · split
        · exact List.Pairwise.nil
        · split
          · exact List.Pairwise.nil
          · dsimp only
            rename_i df _ _ _ _
            apply List.pairwise_filterMap.mpr
            apply List.Pairwise.imp ?_
              (List.sorted_insertionSort dateLE
                (df.rows.filterMap (fun r => r.date.map (fun d => (d, r)))))
            intro a b hab x hx y hy
            cases hca : a.2.Close with
            | none => rw [hca] at hx; simp at hx
            | some ca =>
              cases hcb : b.2.Close with
              | none => rw [hcb] at hy; simp at hy
              | some cb =>
                rw [hca] at hx
                rw [hcb] at hy
                simp only [Option.mem_def, Option.map_some',
                  Option.some.injEq] at hx hy
                rw [← hx, ← hy]
                exact hab

/-- With a well-shaped nonempty provider frame, the fetched table is a
permutation of exactly the validated raw rows. -/
theorem fetch_perm (p : Provider) (sc : List Char) (sd ed : Int)
    (df : RawTable)
    (h1 : normalize_stock_symbol (Option.some sc) ≠ [])
    (h2 : p (normalize_stock_symbol (Option.some sc)) sd ed
        = ProviderResult.table df)
    (h3 : df.rows ≠ [])
    (h4 : ∀ c ∈ rename_keys, df.cols.contains c = true) :
    (fetch_china_stock_data p sc sd ed).Perm (keptRows df) := by
  unfold fetch_china_stock_data
  dsimp only
  rw [if_neg (by simpa [List.isEmpty_iff] using h1)]
  unfold fetch_body
  rw [h2]
  dsimp only
  rw [if_neg (by simpa [List.isEmpty_iff] using h3)]
  have hfil : rename_keys.filter (fun c => df.cols.contains c) = rename_keys :=
    List.filter_eq_self.mpr h4
  rw [if_neg (by rw [hfil]; decide)]
  have hall : rename_keys.all (fun c => df.cols.contains c) = true :=
    List.all_eq_true.mpr h4
  rw [hall]
  simp only [Bool.not_true, Bool.false_eq_true, if_false]
  refine ((List.perm_insertionSort dateLE _).filterMap _).trans ?_
  rw [List.filterMap_filterMap]
  apply List.Perm.of_eq
  unfold keptRows
  congr 1
  funext r
  cases hd : r.date with
  | none => rfl
  | some d =>
    cases hc : r.Close with
    | none => simp [hc]
    | some c => simp [hc]

/-- The indicator engine preserves the date of every row. -/
theorem feature_engineering_dates (t : List OHLCVRow) :
    (feature_engineering t).map (fun r => r.date) = t.map (fun r => r.date) := by
  by_cases h : t = []
  · subst h
    rfl
  · apply List.ext_getElem
    · simp [feature_engineering_length]
    · intro i h1 h2
      simp only [List.getElem_map]
      have hit : i < t.length := by simpa using h2
      have hfe : i < (feature_engineering t).length := by
        rw [feature_engineering_length]
        exact hit
      have hr := feature_engineering_row t i hit
      rw [List.getD_eq_getElem _ _ hfe] at hr
      rw [hr]
      show (t.getD i defaultOHLCV).date = _
      rw [List.getD_eq_getElem _ _ hit]

/-- C8 (amended): the fetched table is sorted non-decreasing by date
(duplicate dates are retained, not deduplicated); when the provider returns
a well-shaped nonempty frame the fetched table consists of exactly the raw
rows with a parseable date and a present Close, so Close-invalid rows are
dropped during fetch; and no row is dropped later: the indicator engine
preserves length and rowwise dates. -/
theorem fetch_table_invariants (p : Provider) (sc : List Char) (sd ed : Int)
    (df : RawTable)
    (h1 : normalize_stock_symbol (Option.some sc) ≠ [])
    (h2 : p (normalize_stock_symbol (Option.some sc)) sd ed
        = ProviderResult.table df)
    (h3 : df.rows ≠ [])
    (h4 : ∀ c ∈ rename_keys, df.cols.contains c = true) :
    (∀ (p2 : Provider) (sc2 : List Char) (sd2 ed2 : Int),
      List.Pairwise (fun a b : OHLCVRow => a.date ≤ b.date)
        (fetch_china_stock_data p2 sc2 sd2 ed2))
    ∧ (fetch_china_stock_data p sc sd ed).Perm (keptRows df)
    ∧ (∀ t : List OHLCVRow,
        (feature_engineering t).length = t.length
        ∧ (feature_engineering t).map (fun r => r.date)
            = t.map (fun r => r.date)) :=
  ⟨fetch_sorted, fetch_perm p sc sd ed df h1 h2 h3 h4,
    fun t => ⟨feature_engineering_length t, feature_engineering_dates t⟩⟩

/-- C8 witness: the hypotheses hold for the concrete frame and the fetched
table is a permutation of its validated rows. -/
theorem fetch_table_invariants_witness :
    normalize_stock_symbol (Option.some ("600519".toList)) ≠ []
    ∧ witProvider (normalize_stock_symbol (Option.some ("600519".toList))) 0 9
        = ProviderResult.table witTable
    ∧ (fetch_china_stock_data witProvider ("600519".toList) 0 9).Perm
        (keptRows witTable) :=
  ⟨by decide, rfl,
    (fetch_table_invariants witProvider ("600519".toList) 0 9 witTable
      (by decide) rfl (by decide) (by decide)).2.1⟩

/-- C8 counterexample: the duplicate date survives the fetch, so the fetched
table is not strictly increasing by date and has a duplicate date. -/
theorem fetch_duplicate_dates_counterexample :
    (fetch_china_stock_data dupDateProvider ("600519".toList) 0 9).map
        (fun r => r.date) = [5, 5]
    ∧ ¬ List.Pairwise (fun a b : Int => a < b)
        ((fetch_china_stock_data dupDateProvider ("600519".toList) 0 9).map
          (fun r => r.date)) := by
  constructor
  · decide
  · intro hp
    have h55 : (fetch_china_stock_data dupDateProvider ("600519".toList) 0 9).map
        (fun r => r.date) = [5, 5] := by decide
    rw [h55] at hp
    simp at hp

/-- C9 (amended): in every success envelope, data is exactly one sanitized
record per enriched row, in table order; every record is a dict whose keys
are the stable column order; and the Date value is the pandas timestamp
object of the row (it is rendered to a string only by the HTTP
serialization layer outside this module). -/
theorem success_data_records (now : Int) (p : Provider)
    (sc : Option (List Char)) (iv : IntervalInput)
    (hs : (get_stock_data_with_features now p sc iv).success = true) :
    (get_stock_data_with_features now p sc iv).data
      = (feature_engineering (fetch_china_stock_data p (normalize_stock_symbol sc)
          (calc_date_range now iv).1 (calc_date_range now iv).2.1)).map
          (fun r => sanitize_for_json (recordOfRow r))
    ∧ (∀ v ∈ (get_stock_data_with_features now p sc iv).data,
        ∃ kvs, v = PyVal.dict kvs ∧ kvs.map Prod.fst = column_order)
    ∧ (∀ r : EnrichedRow, ∃ rest, sanitize_for_json (recordOfRow r)
        = PyVal.dict (("Date".toList, PyVal.stamp r.date) :: rest)) := by
  simp only [get_stock_data_with_features, get_stock_data_traced] at hs ⊢
  split at hs
  · simp at hs
  · split at hs
    · simp at hs
    · rename_i hsym hdf
      rw [if_neg hsym, if_neg hdf]
      refine ⟨?_, ?_, fun r => ⟨_, rfl⟩⟩
      · dsimp only
        rw [List.map_map]
        rfl
      · intro v hv
        dsimp only at hv
        rw [List.map_map, List.mem_map] at hv
        obtain ⟨r, _, rfl⟩ := hv
        refine ⟨_, rfl, ?_⟩
        show (sanitizeKVs _).map Prod.fst = column_order
        rw [sanitizeKVs_keys]
        rfl

/-- C9 witness: a concrete successful run whose records all carry the stable
column order. -/
theorem success_data_records_witness :
    (get_stock_data_with_features 10 witProvider (Option.some ("600519".toList))
        IntervalInput.none).success = true
    ∧ (∀ v ∈ (get_stock_data_with_features 10 witProvider
          (Option.some ("600519".toList)) IntervalInput.none).data,
        ∃ kvs, v = PyVal.dict kvs ∧ kvs.map Prod.fst = column_order) :=
  ⟨by decide,
    (success_data_records 10 witProvider (Option.some ("600519".toList))
      IntervalInput.none (by decide)).2.1⟩

/-- C9 counterexample: in a concrete success envelope, the Date value of the
first record is the timestamp object, not a string. -/
theorem date_not_string_counterexample :
    (get_stock_data_with_features 10 witProvider (Option.some ("600519".toList))
        IntervalInput.none).success = true
    ∧ dictGet ((get_stock_data_with_features 10 witProvider
          (Option.some ("600519".toList)) IntervalInput.none).data.headD
          PyVal.none) ("Date".toList) = Option.some (PyVal.stamp 4)
    ∧ PyVal.isStr (PyVal.stamp 4) = false :=
  ⟨by decide, rfl, rfl⟩

end StockService
